import Mathlib

/-!
# Side-by-side diff rendering (`diff.go`)

A shallow embedding of `renderFile` from `diff.go`: the hunk aligner that turns
the lines of a hunk body into two columns of table cells, and the HTML that is
written around them.

Go strings are byte sequences, so a string is a list of bytes here.  The
standard-library functions the program calls (`html.EscapeString`,
`strings.Split`, `fmt.Sprintf` with `%s`, `append`) are modelled by their
documented behaviour on bytes.
-/

namespace Diff

/-- A Go string: a finite sequence of bytes. -/
abbrev GoString := List UInt8

/-- The bytes of an ASCII string literal of the source. -/
def ascii (s : String) : GoString := s.toList.map (fun c => c.toNat.toUInt8)

/-! ## Standard library -/

/-- One byte under `html.EscapeString`: the replacer built from the pairs
`&`/`&amp;`, `'`/`&#39;`, `<`/`&lt;`, `>`/`&gt;`, `"`/`&#34;`; every other byte is
copied. -/
def escapeByte (b : UInt8) : GoString :=
  if b = 38 then ascii "&amp;"
  else if b = 39 then ascii "&#39;"
  else if b = 60 then ascii "&lt;"
  else if b = 62 then ascii "&gt;"
  else if b = 34 then ascii "&#34;"
  else [b]

/-- The function `html.EscapeString`: all five old strings are single bytes, so
the replacer rewrites the input byte by byte. -/
def EscapeString (s : GoString) : GoString := s.flatMap escapeByte

/-- The function `strings.Split(s, sep)` for a one-byte separator: the pieces of
`s` between the occurrences of `sep`; one more piece than there are separators,
so the empty string gives one empty piece. -/
def Split (sep : UInt8) : GoString → List GoString
  | [] => [[]]
  | b :: rest =>
    if b = sep then [] :: Split sep rest
    else
      match Split sep rest with
      | [] => [[b]]
      | piece :: pieces => (b :: piece) :: pieces

/-! ## Cells -/

/-- The cell appended while a column is shorter than the other: `"<td></td>"`. -/
def placeholder : GoString := ascii "<td></td>"

/-- The cell `fmt.Sprintf("<td class=del>- %s</td>", line)`. -/
def delCell (line : GoString) : GoString := ascii "<td class=del>- " ++ line ++ ascii "</td>"

/-- The cell `fmt.Sprintf("<td class=add>+ %s</td>", line)`. -/
def addCell (line : GoString) : GoString := ascii "<td class=add>+ " ++ line ++ ascii "</td>"

/-- The cell `fmt.Sprintf("<td> %s</td>", line)`. -/
def ctxCell (line : GoString) : GoString := ascii "<td> " ++ line ++ ascii "</td>"

/-! ## The hunk aligner -/

/-- The two columns being built: `left` and `right`. -/
abbrev Columns := List GoString × List GoString

/-- The loop `for len(col) < len(other) { col = append(col, "<td></td>") }`. -/
def padShorter (col other : List GoString) : List GoString :=
  if col.length < other.length then padShorter (col ++ [placeholder]) other else col
termination_by other.length - col.length
decreasing_by simp only [List.length_append, List.length_singleton]; omega

/-- Both padding loops in the order of the source: first `left` is padded up to
`right`, then `right` up to the new `left`. -/
def equalize (st : Columns) : Columns :=
  let left := padShorter st.1 st.2
  let right := padShorter st.2 left
  (left, right)

/-- The marker and the text of an escaped line: `ltype := ' '`, and when
`len(line) > 0`, `ltype = rune(line[0])` and `line = line[1:]`. -/
def markerAndText (line : GoString) : UInt8 × GoString :=
  match line with
  | [] => (32, [])
  | b :: rest => (b, rest)

/-- One iteration of the loop over the lines of a hunk body. -/
def step (st : Columns) (l : GoString) : Columns :=
  let line := EscapeString l
  let ltype := (markerAndText line).1
  let line := (markerAndText line).2
  if ltype = 45 then (st.1 ++ [delCell line], st.2)
  else if ltype = 43 then (st.1, st.2 ++ [addCell line])
  else if ltype = 32 then
    let st := equalize st
    (st.1 ++ [ctxCell line], st.2 ++ [ctxCell line])
  else st

/-- The columns after the loop over `lines` and the two final padding loops. -/
def alignLines (lines : List GoString) : Columns :=
  equalize (lines.foldl step ([], []))

/-- The lines of a hunk body: `strings.Split(string(h.Body), "\n")`. -/
def hunkLines (body : GoString) : List GoString := Split 10 body

/-- The columns `left` and `right` that `renderFile` has built for a hunk body
when it starts emitting rows. -/
def alignHunk (body : GoString) : Columns := alignLines (hunkLines body)

/-! ## Emission -/

/-- The emission loop `for i := 0; i < len(left); i++` writing
`"<tr>%s%s</tr>"` of `left[i]` and `right[i]`; `none` is an index out of range. -/
def emitRows (left right : List GoString) : Option GoString :=
  (List.range left.length).foldlM
    (fun w i => do
      let a ← left[i]?
      let b ← right[i]?
      pure (w ++ ascii "<tr>" ++ a ++ b ++ ascii "</tr>"))
    []

/-- What is written for one hunk body from the opening `<table>` tag to
`</table>`. -/
def renderTable (body : GoString) : Option GoString := do
  let rows ← emitRows (alignHunk body).1 (alignHunk body).2
  pure (ascii "<table class=hunk width='100%'>" ++ rows ++ ascii "</table>")

/-- A hunk of `go-diff`; the aligner reads its `Body` only. -/
structure Hunk where
  Body : GoString

/-- A file of `go-diff`: its original name and its hunks. -/
structure FileDiff where
  OrigName : GoString
  Hunks : List Hunk

/-- What is written for the hunk at index `hi`: the separator when `hi > 0`, the
comment holding the escaped `%#v` rendering of the hunk, and the table.  The
`%#v` formatting of a hunk is the parameter `goSyntax`. -/
def renderHunk (goSyntax : Hunk → GoString) (hi : Nat) (h : Hunk) : Option GoString := do
  let table ← renderTable h.Body
  pure ((if hi > 0 then ascii "<hr>" else []) ++
    ascii "<!-- " ++ EscapeString (goSyntax h) ++ ascii " -->" ++ table)

/-- The loop over `f.Hunks`, from hunk index `hi` on. -/
def renderHunks (goSyntax : Hunk → GoString) : Nat → List Hunk → Option GoString
  | _, [] => some []
  | hi, h :: hs => do
    let first ← renderHunk goSyntax hi h
    let others ← renderHunks goSyntax (hi + 1) hs
    pure (first ++ others)

/-- Everything `renderFile` writes for a file. -/
def renderFile (goSyntax : Hunk → GoString) (f : FileDiff) : Option GoString := do
  let hunks ← renderHunks goSyntax 0 f.Hunks
  pure (ascii "<section>" ++ ascii "<h2>" ++ f.OrigName ++ ascii "</h2>" ++ hunks ++
    ascii "</section>")

/-! ## Vocabulary of the specification

The kind and the text of a raw line as the specification describes them: the
first byte is the marker, the rest is the text, and a line without a marker is a
context line with empty text. -/

/-- The kinds of diff lines. -/
inductive Kind where
  | removed
  | added
  | context
  | other
  deriving DecidableEq, Repr

/-- The kind of a raw line, read off its first byte. -/
def kindOf (l : GoString) : Kind :=
  match l with
  | [] => Kind.context
  | b :: _ =>
    if b = 45 then Kind.removed
    else if b = 43 then Kind.added
    else if b = 32 then Kind.context
    else Kind.other

/-- The cell of a raw line in the left column, if it has one there. -/
def leftCellOf (l : GoString) : Option GoString :=
  match kindOf l with
  | Kind.removed => some (delCell (EscapeString l.tail))
  | Kind.context => some (ctxCell (EscapeString l.tail))
  | _ => none

/-- The cell of a raw line in the right column, if it has one there. -/
def rightCellOf (l : GoString) : Option GoString :=
  match kindOf l with
  | Kind.added => some (addCell (EscapeString l.tail))
  | Kind.context => some (ctxCell (EscapeString l.tail))
  | _ => none

/-- One iteration of a reference aligner that classifies the raw line, strips
its marker and then escapes the remaining text. -/
def refStep (st : Columns) (l : GoString) : Columns :=
  match kindOf l with
  | Kind.removed => (st.1 ++ [delCell (EscapeString l.tail)], st.2)
  | Kind.added => (st.1, st.2 ++ [addCell (EscapeString l.tail)])
  | Kind.context =>
    let st := equalize st
    (st.1 ++ [ctxCell (EscapeString l.tail)], st.2 ++ [ctxCell (EscapeString l.tail)])
  | Kind.other => st

/-- The reference aligner on a hunk body. -/
def refAlignHunk (body : GoString) : Columns :=
  equalize ((hunkLines body).foldl refStep ([], []))

/-- A context cell: a cell of the form `<td> ...`, which neither a removed cell,
an added cell nor a placeholder is. -/
def isContextCell (c : GoString) : Bool := decide (c.take 5 = ascii "<td> ")

/-- The shapes of an aligned row: the same context cell on both sides, a removed
cell next to an added cell, a removed cell next to a placeholder, or a
placeholder next to an added cell. -/
def RowShape (a b : GoString) : Prop :=
  (∃ t, a = ctxCell t ∧ b = ctxCell t) ∨
    (∃ s t, a = delCell s ∧ b = addCell t) ∨
    (∃ s, a = delCell s ∧ b = placeholder) ∨
    (∃ t, a = placeholder ∧ b = addCell t)

/-- The table row `fmt.Sprintf("<tr>%s%s</tr>", a, b)`. -/
def tableRow (a b : GoString) : GoString := ascii "<tr>" ++ a ++ b ++ ascii "</tr>"

/-- The table of a hunk body as the specification describes it: the opening tag,
one row per aligned row with the left cell first, and the closing tag. -/
def tableText (body : GoString) : GoString :=
  ascii "<table class=hunk width='100%'>" ++
    (List.zipWith tableRow (alignHunk body).1 (alignHunk body).2).flatten ++ ascii "</table>"

/-- The rendering of a hunk without its separator: the comment and the table. -/
def hunkText (goSyntax : Hunk → GoString) (h : Hunk) : GoString :=
  ascii "<!-- " ++ EscapeString (goSyntax h) ++ ascii " -->" ++ tableText h.Body

/-! ## Checked indexing

The index expression `s[i]` and the slice expression `s[lo:]` of Go stop the
program when they are out of range; here they return `none` then. -/

/-- The index expression `s[i]`. -/
def indexByte (s : GoString) (i : Nat) : Option UInt8 := s[i]?

/-- The slice expression `s[lo:]`, in range when `lo <= len(s)`. -/
def sliceFrom (s : GoString) (lo : Nat) : Option GoString :=
  if lo ≤ s.length then some (s.drop lo) else none

/-- The marker and the text of an escaped line with the accesses `line[0]` and
`line[1:]` checked. -/
def markerAndTextChecked (line : GoString) : Option (UInt8 × GoString) :=
  if line.length > 0 then do
    let ltype ← indexByte line 0
    let rest ← sliceFrom line 1
    pure (ltype, rest)
  else pure (32, line)

/-- One iteration of the loop over the lines with checked accesses. -/
def stepChecked (st : Columns) (l : GoString) : Option Columns := do
  let mt ← markerAndTextChecked (EscapeString l)
  let ltype := mt.1
  let line := mt.2
  if ltype = 45 then pure (st.1 ++ [delCell line], st.2)
  else if ltype = 43 then pure (st.1, st.2 ++ [addCell line])
  else if ltype = 32 then
    let st := equalize st
    pure (st.1 ++ [ctxCell line], st.2 ++ [ctxCell line])
  else pure st

/-- The columns of a hunk body with checked accesses. -/
def alignHunkChecked (body : GoString) : Option Columns := do
  let st ← (hunkLines body).foldlM stepChecked ([], [])
  pure (equalize st)

/-- The shape of the columns inside the loop: rows that are already aligned,
followed by the removed cells and the added cells of the current run. -/
def AlignedThenRun (st : Columns) : Prop :=
  ∃ A B X Y, st = (A ++ X, B ++ Y) ∧ List.Forall₂ RowShape A B ∧
    (∀ x ∈ X, ∃ s, x = delCell s) ∧ (∀ y ∈ Y, ∃ t, y = addCell t)

/-! ## Padding -/

theorem padShorter_eq (col other : List GoString) :
    padShorter col other = col ++ List.replicate (other.length - col.length) placeholder := by
  generalize h : other.length - col.length = k
  induction k generalizing col with
  | zero =>
    rw [padShorter, if_neg (by omega)]
    simp
  | succ k ih =>
    rw [padShorter, if_pos (by omega), ih (col ++ [placeholder]) (by simp; omega)]
    simp [List.replicate_succ]

theorem equalize_eq (st : Columns) :
    equalize st = (st.1 ++ List.replicate (st.2.length - st.1.length) placeholder,
      st.2 ++ List.replicate (st.1.length - st.2.length) placeholder) := by
  simp only [equalize, padShorter_eq, List.length_append, List.length_replicate]
  congr 3
  omega

theorem equalize_length (st : Columns) : (equalize st).1.length = (equalize st).2.length := by
  simp only [equalize_eq, List.length_append, List.length_replicate]
  omega

theorem equalize_of_length_eq (st : Columns) (h : st.1.length = st.2.length) :
    equalize st = st := by
  simp [equalize_eq, h]

/-! ## Escaping and markers -/

theorem EscapeString_nil : EscapeString [] = [] := rfl

theorem EscapeString_cons (b : UInt8) (t : GoString) :
    EscapeString (b :: t) = escapeByte b ++ EscapeString t := by
  simp [EscapeString]

/-- A byte is either copied, or it is none of the three markers and its
replacement starts with `&`. -/
theorem escapeByte_eq (b : UInt8) :
    escapeByte b = [b] ∨
      ∃ rest, escapeByte b = 38 :: rest ∧ b ≠ 45 ∧ b ≠ 43 ∧ b ≠ 32 := by
  unfold escapeByte
  split_ifs with h1 h2 h3 h4 h5
  · subst h1; exact Or.inr ⟨_, rfl, by decide, by decide, by decide⟩
  · subst h2; exact Or.inr ⟨_, rfl, by decide, by decide, by decide⟩
  · subst h3; exact Or.inr ⟨_, rfl, by decide, by decide, by decide⟩
  · subst h4; exact Or.inr ⟨_, rfl, by decide, by decide, by decide⟩
  · subst h5; exact Or.inr ⟨_, rfl, by decide, by decide, by decide⟩
  · exact Or.inl rfl

theorem escapeByte_marker (b : UInt8) (h : b = 45 ∨ b = 43 ∨ b = 32) : escapeByte b = [b] := by
  rcases h with rfl | rfl | rfl <;> rfl

/-- The loop body agrees with the reference step on every raw line. -/
theorem step_eq_refStep (st : Columns) (l : GoString) : step st l = refStep st l := by
  cases l with
  | nil => simp [step, refStep, kindOf, EscapeString_nil, markerAndText]
  | cons b t =>
    rcases escapeByte_eq b with h | ⟨rest, h, h1, h2, h3⟩
    · simp only [step, refStep, kindOf, EscapeString_cons, h, markerAndText, List.singleton_append,
        List.tail_cons]
      split_ifs <;> rfl
    · simp only [step, refStep, kindOf, EscapeString_cons, h, markerAndText, List.cons_append,
        List.tail_cons, if_neg h1, if_neg h2, if_neg h3]
      simp

theorem foldl_step_eq (ls : List GoString) (st : Columns) :
    ls.foldl step st = ls.foldl refStep st := by
  have h : step = refStep := by
    funext st l
    exact step_eq_refStep st l
  rw [h]

/-- On a marker byte, the first byte of the escaped line is the first byte of the
raw line. -/
theorem head?_EscapeString (l : GoString) (m : UInt8) (hm : m = 45 ∨ m = 43 ∨ m = 32) :
    (EscapeString l).head? = some m ↔ l.head? = some m := by
  cases l with
  | nil => simp [EscapeString_nil]
  | cons b t =>
    rcases escapeByte_eq b with h | ⟨rest, h, h1, h2, h3⟩
    · simp [EscapeString_cons, h]
    · simp only [EscapeString_cons, h, List.cons_append, List.head?_cons, Option.some.injEq]
      constructor
      · intro h38
        subst h38
        rcases hm with hm | hm | hm <;> exact absurd hm (by decide)
      · intro hb
        subst hb
        rcases hm with hm | hm | hm
        · exact absurd hm h1
        · exact absurd hm h2
        · exact absurd hm h3

/-- Stripping the marker commutes with escaping. -/
theorem tail_EscapeString (l : GoString) (m : UInt8) (hm : m = 45 ∨ m = 43 ∨ m = 32)
    (hl : l.head? = some m) : (EscapeString l).tail = EscapeString l.tail := by
  cases l with
  | nil => simp at hl
  | cons b t =>
    simp only [List.head?_cons, Option.some.injEq] at hl
    subst hl
    simp [EscapeString_cons, escapeByte_marker b hm]

/-- No byte of a replacement is one of `<`, `>`, `"`, `'`. -/
theorem escapeByte_clean (a b : UInt8) (hb : b ∈ escapeByte a) :
    b ≠ 60 ∧ b ≠ 62 ∧ b ≠ 34 ∧ b ≠ 39 := by
  unfold escapeByte at hb
  have hamp : ∀ c ∈ ascii "&amp;", c ≠ 60 ∧ c ≠ 62 ∧ c ≠ 34 ∧ c ≠ 39 := by decide
  have h39 : ∀ c ∈ ascii "&#39;", c ≠ 60 ∧ c ≠ 62 ∧ c ≠ 34 ∧ c ≠ 39 := by decide
  have hlt : ∀ c ∈ ascii "&lt;", c ≠ 60 ∧ c ≠ 62 ∧ c ≠ 34 ∧ c ≠ 39 := by decide
  have hgt : ∀ c ∈ ascii "&gt;", c ≠ 60 ∧ c ≠ 62 ∧ c ≠ 34 ∧ c ≠ 39 := by decide
  have h34 : ∀ c ∈ ascii "&#34;", c ≠ 60 ∧ c ≠ 62 ∧ c ≠ 34 ∧ c ≠ 39 := by decide
  split_ifs at hb with h1 h2 h3 h4 h5
  · exact hamp b hb
  · exact h39 b hb
  · exact hlt b hb
  · exact hgt b hb
  · exact h34 b hb
  · rw [List.mem_singleton] at hb
    subst hb
    exact ⟨h3, h4, h5, h2⟩

theorem EscapeString_clean (t : GoString) (b : UInt8) (hb : b ∈ EscapeString t) :
    b ≠ 60 ∧ b ≠ 62 ∧ b ≠ 34 ∧ b ≠ 39 := by
  unfold EscapeString at hb
  obtain ⟨a, _, ha⟩ := List.mem_flatMap.1 hb
  exact escapeByte_clean a b ha

/-! ## Cells are not placeholders -/

theorem placeholder_third : placeholder[3]? = some 62 := by decide

theorem placeholder_fourth : placeholder[4]? = some 60 := by decide

theorem delCell_ne_placeholder (t : GoString) : delCell t ≠ placeholder := by
  intro h
  have h1 : (delCell t)[3]? = some 32 := rfl
  rw [h, placeholder_third] at h1
  exact absurd h1 (by decide)

theorem addCell_ne_placeholder (t : GoString) : addCell t ≠ placeholder := by
  intro h
  have h1 : (addCell t)[3]? = some 32 := rfl
  rw [h, placeholder_third] at h1
  exact absurd h1 (by decide)

theorem ctxCell_ne_placeholder (t : GoString) : ctxCell t ≠ placeholder := by
  intro h
  have h0 : ascii "<td> " = [60, 116, 100, 62, 32] := by decide
  have h1 : (ctxCell t)[4]? = some 32 := by
    simp [ctxCell, h0]
  rw [h, placeholder_fourth] at h1
  exact absurd h1 (by decide)

/-- Removing the placeholder cells of a column. -/
theorem filter_replicate_placeholder (n : Nat) :
    (List.replicate n placeholder).filter (fun c => decide (c ≠ placeholder)) = [] := by
  induction n with
  | zero => rfl
  | succ k ih => simp [List.replicate_succ]

theorem leftCellOf_ne_placeholder (l c : GoString) (h : leftCellOf l = some c) :
    c ≠ placeholder := by
  unfold leftCellOf at h
  split at h
  · cases h; exact delCell_ne_placeholder _
  · cases h; exact ctxCell_ne_placeholder _
  · cases h

theorem rightCellOf_ne_placeholder (l c : GoString) (h : rightCellOf l = some c) :
    c ≠ placeholder := by
  unfold rightCellOf at h
  split at h
  · cases h; exact addCell_ne_placeholder _
  · cases h; exact ctxCell_ne_placeholder _
  · cases h

/-! ## The columns without their placeholders -/

/-- A column with its placeholder cells removed. -/
theorem equalize_filter (st : Columns) :
    (equalize st).1.filter (fun c => decide (c ≠ placeholder)) =
        st.1.filter (fun c => decide (c ≠ placeholder)) ∧
      (equalize st).2.filter (fun c => decide (c ≠ placeholder)) =
        st.2.filter (fun c => decide (c ≠ placeholder)) := by
  simp [equalize_eq, List.filter_append, filter_replicate_placeholder]

theorem refStep_filter (st : Columns) (l : GoString) :
    (refStep st l).1.filter (fun c => decide (c ≠ placeholder)) =
        st.1.filter (fun c => decide (c ≠ placeholder)) ++ (leftCellOf l).toList ∧
      (refStep st l).2.filter (fun c => decide (c ≠ placeholder)) =
        st.2.filter (fun c => decide (c ≠ placeholder)) ++ (rightCellOf l).toList := by
  unfold refStep leftCellOf rightCellOf
  have h := equalize_filter st
  simp only [ne_eq, decide_not] at h
  cases kindOf l <;>
    simp [List.filter_append, h.1, h.2,
      delCell_ne_placeholder, addCell_ne_placeholder, ctxCell_ne_placeholder]

theorem foldl_refStep_filter (ls : List GoString) (st : Columns) :
    (ls.foldl refStep st).1.filter (fun c => decide (c ≠ placeholder)) =
        st.1.filter (fun c => decide (c ≠ placeholder)) ++ ls.filterMap leftCellOf ∧
      (ls.foldl refStep st).2.filter (fun c => decide (c ≠ placeholder)) =
        st.2.filter (fun c => decide (c ≠ placeholder)) ++ ls.filterMap rightCellOf := by
  induction ls generalizing st with
  | nil => simp
  | cons l ls ih =>
    rw [List.foldl_cons, (ih _).1, (ih _).2, (refStep_filter st l).1, (refStep_filter st l).2]
    constructor
    · cases h : leftCellOf l <;> simp [List.filterMap_cons, h]
    · cases h : rightCellOf l <;> simp [List.filterMap_cons, h]

/-! ## Runs of lines of one kind -/

theorem kindOf_removed (l : GoString) (h : l.head? = some 45) : kindOf l = Kind.removed := by
  cases l with
  | nil => simp at h
  | cons b t =>
    simp only [List.head?_cons, Option.some.injEq] at h
    subst h
    rfl

theorem kindOf_added (l : GoString) (h : l.head? = some 43) : kindOf l = Kind.added := by
  cases l with
  | nil => simp at h
  | cons b t =>
    simp only [List.head?_cons, Option.some.injEq] at h
    subst h
    rfl

theorem kindOf_context (l : GoString) (h : l = [] ∨ l.head? = some 32) :
    kindOf l = Kind.context := by
  cases l with
  | nil => rfl
  | cons b t =>
    rcases h with h | h
    · cases h
    · simp only [List.head?_cons, Option.some.injEq] at h
      subst h
      rfl

theorem foldl_refStep_removed (rs : List GoString) (st : Columns)
    (h : ∀ r ∈ rs, r.head? = some 45) :
    rs.foldl refStep st = (st.1 ++ rs.map (fun r => delCell (EscapeString r.tail)), st.2) := by
  induction rs generalizing st with
  | nil => simp
  | cons r rs ih =>
    have hr : refStep st r = (st.1 ++ [delCell (EscapeString r.tail)], st.2) := by
      simp [refStep, kindOf_removed r (h r (List.mem_cons_self _ _))]
    rw [List.foldl_cons, hr, ih _ (fun x hx => h x (List.mem_cons_of_mem _ hx))]
    simp

theorem foldl_refStep_added (as : List GoString) (st : Columns)
    (h : ∀ a ∈ as, a.head? = some 43) :
    as.foldl refStep st = (st.1, st.2 ++ as.map (fun a => addCell (EscapeString a.tail))) := by
  induction as generalizing st with
  | nil => simp
  | cons a as ih =>
    have ha : refStep st a = (st.1, st.2 ++ [addCell (EscapeString a.tail)]) := by
      simp [refStep, kindOf_added a (h a (List.mem_cons_self _ _))]
    rw [List.foldl_cons, ha, ih _ (fun x hx => h x (List.mem_cons_of_mem _ hx))]
    simp

theorem refStep_context (st : Columns) (c : GoString) (h : c = [] ∨ c.head? = some 32) :
    refStep st c = ((equalize st).1 ++ [ctxCell (EscapeString c.tail)],
      (equalize st).2 ++ [ctxCell (EscapeString c.tail)]) := by
  simp [refStep, kindOf_context c h]

theorem foldl_refStep_context (cs : List GoString) (col : List GoString)
    (h : ∀ c ∈ cs, c = [] ∨ c.head? = some 32) :
    cs.foldl refStep (col, col) =
      (col ++ cs.map (fun c => ctxCell (EscapeString c.tail)),
        col ++ cs.map (fun c => ctxCell (EscapeString c.tail))) := by
  induction cs generalizing col with
  | nil => simp
  | cons c cs ih =>
    rw [List.foldl_cons, refStep_context _ c (h c (List.mem_cons_self _ _)),
      equalize_of_length_eq (col, col) rfl, ih _ (fun x hx => h x (List.mem_cons_of_mem _ hx))]
    simp

theorem count_placeholder_removed (rs : List GoString) :
    (rs.map (fun r => delCell (EscapeString r.tail))).count placeholder = 0 := by
  rw [List.count_eq_zero]
  intro hmem
  obtain ⟨r, _, hr⟩ := List.mem_map.1 hmem
  exact delCell_ne_placeholder _ hr

theorem count_placeholder_added (as : List GoString) :
    (as.map (fun a => addCell (EscapeString a.tail))).count placeholder = 0 := by
  rw [List.count_eq_zero]
  intro hmem
  obtain ⟨a, _, ha⟩ := List.mem_map.1 hmem
  exact addCell_ne_placeholder _ ha

/-- The columns of a run of removed lines, a run of added lines and one context
line. -/
theorem alignLines_run (rs as : List GoString) (c : GoString)
    (hr : ∀ r ∈ rs, r.head? = some 45) (ha : ∀ a ∈ as, a.head? = some 43)
    (hc : c.head? = some 32) :
    alignLines (rs ++ as ++ [c]) =
      (rs.map (fun r => delCell (EscapeString r.tail)) ++
          List.replicate (max rs.length as.length - rs.length) placeholder ++
          [ctxCell (EscapeString c.tail)],
        as.map (fun a => addCell (EscapeString a.tail)) ++
          List.replicate (max rs.length as.length - as.length) placeholder ++
          [ctxCell (EscapeString c.tail)]) := by
  unfold alignLines
  rw [foldl_step_eq, List.foldl_append, List.foldl_append, foldl_refStep_removed rs _ hr,
    foldl_refStep_added as _ ha, List.foldl_cons, List.foldl_nil,
    refStep_context _ c (Or.inr hc), equalize_of_length_eq]
  · simp only [equalize_eq, List.nil_append, List.length_map]
    have h1 : as.length - rs.length = max rs.length as.length - rs.length := by omega
    have h2 : rs.length - as.length = max rs.length as.length - as.length := by omega
    rw [h1, h2]
  · simp only [List.length_append, List.length_singleton]
    rw [equalize_length]

theorem refStep_removed (st : Columns) (l : GoString) (h : l.head? = some 45) :
    refStep st l = (st.1 ++ [delCell (EscapeString l.tail)], st.2) := by
  simp [refStep, kindOf_removed l h]

theorem refStep_added (st : Columns) (l : GoString) (h : l.head? = some 43) :
    refStep st l = (st.1, st.2 ++ [addCell (EscapeString l.tail)]) := by
  simp [refStep, kindOf_added l h]

/-- A line with another marker leaves the columns as they are. -/
theorem refStep_other (st : Columns) (l : GoString) (hne : l ≠ [])
    (h : ∀ b, l.head? = some b → b ≠ 45 ∧ b ≠ 43 ∧ b ≠ 32) : refStep st l = st := by
  cases l with
  | nil => exact absurd rfl hne
  | cons b t =>
    obtain ⟨h1, h2, h3⟩ := h b rfl
    simp [refStep, kindOf, h1, h2, h3]

/-! ## Concrete hunks -/

/-- The empty body has one line, the empty one, and it is a context line. -/
theorem alignHunk_empty : alignHunk [] = ([ctxCell []], [ctxCell []]) := by
  have hl : hunkLines [] = [[]] := rfl
  unfold alignHunk alignLines
  rw [hl, foldl_step_eq]
  simp only [List.foldl_cons, List.foldl_nil]
  rw [refStep_context _ [] (by decide)]
  simp [equalize_eq]
  decide

/-- The columns of the scenario body, its final newline included. -/
theorem alignHunk_scenario :
    alignHunk (ascii "-foo\n-bar\n+baz\n context\n") =
      ([delCell (ascii "foo"), delCell (ascii "bar"), ctxCell (ascii "context"), ctxCell []],
        [addCell (ascii "baz"), placeholder, ctxCell (ascii "context"), ctxCell []]) := by
  have hl : hunkLines (ascii "-foo\n-bar\n+baz\n context\n") =
      [ascii "-foo", ascii "-bar", ascii "+baz", ascii " context", []] := by decide
  unfold alignHunk alignLines
  rw [hl, foldl_step_eq]
  simp only [List.foldl_cons, List.foldl_nil]
  rw [refStep_removed _ (ascii "-foo") (by decide), refStep_removed _ (ascii "-bar") (by decide),
    refStep_added _ (ascii "+baz") (by decide), refStep_context _ (ascii " context") (by decide),
    refStep_context _ [] (by decide)]
  simp [equalize_eq]
  decide

/-- The columns of the scenario body without its final newline. -/
theorem alignHunk_scenario_trimmed :
    alignHunk (ascii "-foo\n-bar\n+baz\n context") =
      ([delCell (ascii "foo"), delCell (ascii "bar"), ctxCell (ascii "context")],
        [addCell (ascii "baz"), placeholder, ctxCell (ascii "context")]) := by
  have hl : hunkLines (ascii "-foo\n-bar\n+baz\n context") =
      [ascii "-foo", ascii "-bar", ascii "+baz", ascii " context"] := by decide
  unfold alignHunk alignLines
  rw [hl, foldl_step_eq]
  simp only [List.foldl_cons, List.foldl_nil]
  rw [refStep_removed _ (ascii "-foo") (by decide), refStep_removed _ (ascii "-bar") (by decide),
    refStep_added _ (ascii "+baz") (by decide), refStep_context _ (ascii " context") (by decide)]
  simp [equalize_eq]
  decide

/-! ## Properties of the specification -/

/-- C1: for every hunk body, the left and the right column that `renderFile` has
built when it starts emitting rows have the same length. -/
theorem columns_same_length (body : GoString) :
    (alignHunk body).1.length = (alignHunk body).2.length := by
  unfold alignHunk alignLines
  exact equalize_length _

/-- C2: for every hunk body, the left column without its placeholder cells is the
list of the cells of the removed and context lines in input order, and the right
column without its placeholder cells is the list of the cells of the added and
context lines in input order. -/
theorem columns_without_placeholders (body : GoString) :
    (alignHunk body).1.filter (fun c => decide (c ≠ placeholder)) =
        (hunkLines body).filterMap leftCellOf ∧
      (alignHunk body).2.filter (fun c => decide (c ≠ placeholder)) =
        (hunkLines body).filterMap rightCellOf := by
  unfold alignHunk alignLines
  rw [(equalize_filter _).1, (equalize_filter _).2, foldl_step_eq,
    (foldl_refStep_filter _ _).1, (foldl_refStep_filter _ _).2]
  simp

/-- C3: a hunk whose lines are N lines starting with `-`, then M lines starting
with `+`, then one line starting with a space yields max(N,M)+1 rows; the context
cell is at row index max(N,M) in both columns; the placeholder cells stand
directly before the context cell, max(N,M)-N of them in the left column and
max(N,M)-M in the right one, so the shorter column holds max(N,M)-min(N,M) and
the longer one none. -/
theorem run_then_context (body : GoString) (rs as : List GoString) (c : GoString)
    (hlines : hunkLines body = rs ++ as ++ [c])
    (hr : ∀ r ∈ rs, r.head? = some 45) (ha : ∀ a ∈ as, a.head? = some 43)
    (hc : c.head? = some 32) :
    alignHunk body =
        (rs.map (fun r => delCell (EscapeString r.tail)) ++
            List.replicate (max rs.length as.length - rs.length) placeholder ++
            [ctxCell (EscapeString c.tail)],
          as.map (fun a => addCell (EscapeString a.tail)) ++
            List.replicate (max rs.length as.length - as.length) placeholder ++
            [ctxCell (EscapeString c.tail)]) ∧
      (alignHunk body).1.length = max rs.length as.length + 1 ∧
      (alignHunk body).2.length = max rs.length as.length + 1 ∧
      (alignHunk body).1[max rs.length as.length]? = some (ctxCell (EscapeString c.tail)) ∧
      (alignHunk body).2[max rs.length as.length]? = some (ctxCell (EscapeString c.tail)) ∧
      (rs.length ≤ as.length →
        (alignHunk body).1.count placeholder =
            max rs.length as.length - min rs.length as.length ∧
          (alignHunk body).2.count placeholder = 0) ∧
      (as.length ≤ rs.length →
        (alignHunk body).2.count placeholder =
            max rs.length as.length - min rs.length as.length ∧
          (alignHunk body).1.count placeholder = 0) := by
  have hal := alignLines_run rs as c hr ha hc
  rw [← hlines] at hal
  change alignHunk body = _ at hal
  have hcl : ([ctxCell (EscapeString c.tail)] : List GoString).count placeholder = 0 := by
    rw [List.count_eq_zero]
    intro hmem
    exact ctxCell_ne_placeholder _ (List.mem_singleton.1 hmem).symm
  refine ⟨hal, ?_, ?_, ?_, ?_, ?_, ?_⟩
  · rw [hal]
    simp only [List.length_append, List.length_map, List.length_replicate, List.length_singleton]
    omega
  · rw [hal]
    simp only [List.length_append, List.length_map, List.length_replicate, List.length_singleton]
    omega
  · rw [hal]
    rw [List.getElem?_append_right (by simp)]
    simp
  · rw [hal]
    rw [List.getElem?_append_right (by simp)]
    simp
  · intro hle
    rw [hal]
    simp only [List.count_append, count_placeholder_removed, count_placeholder_added, hcl,
      List.count_replicate_self]
    omega
  · intro hle
    rw [hal]
    simp only [List.count_append, count_placeholder_removed, count_placeholder_added, hcl,
      List.count_replicate_self]
    omega

theorem run_then_context_witness :
    (hunkLines (ascii "-a\n-b\n+c\n d") = [ascii "-a", ascii "-b"] ++ [ascii "+c"] ++ [ascii " d"] ∧
      (∀ r ∈ [ascii "-a", ascii "-b"], r.head? = some 45) ∧
      (∀ a ∈ [ascii "+c"], a.head? = some 43) ∧ (ascii " d").head? = some 32) ∧
    (alignHunk (ascii "-a\n-b\n+c\n d")).1.length = 3 ∧
    (alignHunk (ascii "-a\n-b\n+c\n d")).2.length = 3 :=
  have h := run_then_context (ascii "-a\n-b\n+c\n d") [ascii "-a", ascii "-b"] [ascii "+c"]
    (ascii " d") (by decide) (by decide) (by decide) (by decide)
  ⟨⟨by decide, by decide, by decide, by decide⟩, h.2.1, h.2.2.1⟩

/-- C4: for every hunk body all of whose lines are context lines (empty or
starting with a space), the two columns are the same list, namely the context
cells of the lines in order: same length, the same cell at every index, and no
placeholder cell in either. -/
theorem context_only (body : GoString)
    (h : ∀ l ∈ hunkLines body, l = [] ∨ l.head? = some 32) :
    (alignHunk body).1 = (alignHunk body).2 ∧
      (alignHunk body).1.length = (alignHunk body).2.length ∧
      (∀ i : Nat, (alignHunk body).1[i]? = (alignHunk body).2[i]?) ∧
      (alignHunk body).1 = (hunkLines body).map (fun l => ctxCell (EscapeString l.tail)) ∧
      placeholder ∉ (alignHunk body).1 ∧ placeholder ∉ (alignHunk body).2 := by
  have hal : alignHunk body =
      ((hunkLines body).map (fun l => ctxCell (EscapeString l.tail)),
        (hunkLines body).map (fun l => ctxCell (EscapeString l.tail))) := by
    unfold alignHunk alignLines
    rw [foldl_step_eq, foldl_refStep_context _ [] h, equalize_of_length_eq _ rfl]
    simp
  have hno : placeholder ∉ (hunkLines body).map (fun l => ctxCell (EscapeString l.tail)) := by
    intro hmem
    obtain ⟨l, _, hl⟩ := List.mem_map.1 hmem
    exact ctxCell_ne_placeholder _ hl
  rw [hal]
  exact ⟨rfl, rfl, fun _ => rfl, rfl, hno, hno⟩

theorem context_only_witness :
    (∀ l ∈ hunkLines (ascii " a\n\n b"), l = [] ∨ l.head? = some 32) ∧
      (alignHunk (ascii " a\n\n b")).1 = (alignHunk (ascii " a\n\n b")).2 ∧
      placeholder ∉ (alignHunk (ascii " a\n\n b")).1 :=
  have h := context_only (ascii " a\n\n b") (by decide)
  ⟨by decide, h.1, h.2.2.2.2.1⟩

/-- C5: for every hunk whose lines all start with `-`, the left column is the
removed cells of the lines in order and the right column is as many placeholder
cells; when all lines start with `+`, the right column is the added cells and the
left column is as many placeholder cells.  A hunk body always has at least one
line. -/
theorem one_sided_hunk (body : GoString) :
    1 ≤ (hunkLines body).length ∧
      ((∀ l ∈ hunkLines body, l.head? = some 45) →
        alignHunk body =
          ((hunkLines body).map (fun l => delCell (EscapeString l.tail)),
            List.replicate (hunkLines body).length placeholder)) ∧
      ((∀ l ∈ hunkLines body, l.head? = some 43) →
        alignHunk body =
          (List.replicate (hunkLines body).length placeholder,
            (hunkLines body).map (fun l => addCell (EscapeString l.tail)))) := by
  refine ⟨?_, ?_, ?_⟩
  · unfold hunkLines
    cases body with
    | nil => simp [Split]
    | cons b t =>
      unfold Split
      split_ifs
      · simp
      · split <;> simp
  · intro h
    unfold alignHunk alignLines
    rw [foldl_step_eq, foldl_refStep_removed _ _ h]
    simp [equalize_eq]
  · intro h
    unfold alignHunk alignLines
    rw [foldl_step_eq, foldl_refStep_added _ _ h]
    simp [equalize_eq]

theorem one_sided_hunk_witness :
    ((∀ l ∈ hunkLines (ascii "-a\n-b"), l.head? = some 45) ∧
      alignHunk (ascii "-a\n-b") =
        ((hunkLines (ascii "-a\n-b")).map (fun l => delCell (EscapeString l.tail)),
          List.replicate (hunkLines (ascii "-a\n-b")).length placeholder)) ∧
    ((∀ l ∈ hunkLines (ascii "+a\n+b"), l.head? = some 43) ∧
      alignHunk (ascii "+a\n+b") =
        (List.replicate (hunkLines (ascii "+a\n+b")).length placeholder,
          (hunkLines (ascii "+a\n+b")).map (fun l => addCell (EscapeString l.tail)))) :=
  ⟨⟨by decide, (one_sided_hunk (ascii "-a\n-b")).2.1 (by decide)⟩,
    ⟨by decide, (one_sided_hunk (ascii "+a\n+b")).2.2 (by decide)⟩⟩

/-- C6, as stated, fails: for the empty hunk body the columns are not empty,
since `strings.Split` gives one empty line and an empty line is a context
line. -/
theorem empty_body_not_zero_rows :
    ¬ ((alignHunk []).1 = [] ∧ (alignHunk []).2 = [] ∧
      renderTable [] = some (ascii "<table class=hunk width='100%'>" ++ ascii "</table>")) := by
  rw [alignHunk_empty]
  intro h
  exact absurd h.1 (by simp)

/-- C6, amended: for the empty hunk body, `renderFile` produces exactly one
aligned row, the empty context cell `<td> </td>` in both columns, and the emitted
table holds exactly that one `<tr>` element. -/
theorem empty_body_one_row :
    alignHunk [] = ([ascii "<td> </td>"], [ascii "<td> </td>"]) ∧
      renderTable [] =
        some (ascii "<table class=hunk width='100%'>" ++
          ascii "<tr><td> </td><td> </td></tr>" ++ ascii "</table>") := by
  constructor
  · rw [alignHunk_empty]
    decide
  · simp only [renderTable, alignHunk_empty]
    decide

/-- C7, as stated, fails: the scenario body with its final newline does not give
exactly the three stated rows. -/
theorem scenario_not_three_rows :
    ¬ (alignHunk (ascii "-foo\n-bar\n+baz\n context\n") =
      ([ascii "<td class=del>- foo</td>", ascii "<td class=del>- bar</td>",
          ascii "<td> context</td>"],
        [ascii "<td class=add>+ baz</td>", ascii "<td></td>", ascii "<td> context</td>"])) := by
  rw [alignHunk_scenario]
  intro h
  have hlen := congrArg (fun st : Columns => st.1.length) h
  simp at hlen

/-- C7, amended: for the scenario body with its final newline the aligned rows
are exactly four, the three stated rows followed by a row whose two cells are the
empty context cell `<td> </td>` (the empty line after the final newline); the
body without its final newline gives exactly the three stated rows. -/
theorem scenario_rows :
    alignHunk (ascii "-foo\n-bar\n+baz\n context\n") =
        ([ascii "<td class=del>- foo</td>", ascii "<td class=del>- bar</td>",
            ascii "<td> context</td>", ascii "<td> </td>"],
          [ascii "<td class=add>+ baz</td>", ascii "<td></td>", ascii "<td> context</td>",
            ascii "<td> </td>"]) ∧
      alignHunk (ascii "-foo\n-bar\n+baz\n context") =
        ([ascii "<td class=del>- foo</td>", ascii "<td class=del>- bar</td>",
            ascii "<td> context</td>"],
          [ascii "<td class=add>+ baz</td>", ascii "<td></td>", ascii "<td> context</td>"]) := by
  rw [alignHunk_scenario, alignHunk_scenario_trimmed]
  decide

/-- C8: a non-empty line whose first byte is none of `-`, `+` and space is
ignored: the loop body leaves the columns as they are, so inserting or deleting
such a line at any position of any list of lines leaves both resulting columns
unchanged. -/
theorem other_marker_ignored (l : GoString) (hne : l ≠ [])
    (h : ∀ b, l.head? = some b → b ≠ 45 ∧ b ≠ 43 ∧ b ≠ 32) :
    (∀ st : Columns, step st l = st) ∧
      ∀ xs ys : List GoString, alignLines (xs ++ l :: ys) = alignLines (xs ++ ys) := by
  have hstep : ∀ st : Columns, step st l = st := fun st => by
    rw [step_eq_refStep, refStep_other st l hne h]
  refine ⟨hstep, fun xs ys => ?_⟩
  unfold alignLines
  rw [List.foldl_append, List.foldl_cons, hstep, List.foldl_append]

theorem other_marker_ignored_witness :
    (ascii "<x" ≠ [] ∧ ∀ b, (ascii "<x").head? = some b → b ≠ 45 ∧ b ≠ 43 ∧ b ≠ 32) ∧
      alignLines ([ascii "-a"] ++ ascii "<x" :: [ascii "+b"]) =
        alignLines ([ascii "-a"] ++ [ascii "+b"]) :=
  have hne : ascii "<x" ≠ [] := by decide
  have hb : ∀ b, (ascii "<x").head? = some b → b ≠ 45 ∧ b ≠ 43 ∧ b ≠ 32 := by
    intro b hb
    have h60 : (ascii "<x").head? = some 60 := by decide
    rw [h60] at hb
    cases hb
    decide
  ⟨⟨hne, hb⟩, (other_marker_ignored (ascii "<x") hne hb).2 [ascii "-a"] [ascii "+b"]⟩

/-- C9: for every raw line and each of the markers `-`, `+` and space, the
escaped line starts with the marker exactly when the raw line does, and then the
escaped line without its first byte is the escaping of the raw line without its
first byte; hence the escape-then-strip aligner of the code and the reference
aligner that classifies and strips on the raw line and then escapes the text give
the same columns for every hunk body. -/
theorem escape_then_strip :
    (∀ (l : GoString) (m : UInt8), (m = 45 ∨ m = 43 ∨ m = 32) →
      ((EscapeString l).head? = some m ↔ l.head? = some m) ∧
        (l.head? = some m → (EscapeString l).tail = EscapeString l.tail)) ∧
      (∀ (st : Columns) (l : GoString), step st l = refStep st l) ∧
      ∀ body : GoString, alignHunk body = refAlignHunk body := by
  refine ⟨fun l m hm => ⟨head?_EscapeString l m hm, tail_EscapeString l m hm⟩,
    step_eq_refStep, fun body => ?_⟩
  unfold alignHunk alignLines refAlignHunk
  rw [foldl_step_eq]

theorem escape_then_strip_witness :
    ((45 : UInt8) = 45 ∨ (45 : UInt8) = 43 ∨ (45 : UInt8) = 32) ∧
      (ascii "-<a>").head? = some 45 ∧
      (EscapeString (ascii "-<a>")).head? = some 45 ∧
      (EscapeString (ascii "-<a>")).tail = EscapeString (ascii "-<a>").tail :=
  have hm : (45 : UInt8) = 45 ∨ (45 : UInt8) = 43 ∨ (45 : UInt8) = 32 := Or.inl rfl
  have hl : (ascii "-<a>").head? = some 45 := by decide
  ⟨hm, hl, ((escape_then_strip.1 (ascii "-<a>") 45 hm).1).2 hl,
    (escape_then_strip.1 (ascii "-<a>") 45 hm).2 hl⟩

/-- C10: for every line that produces a cell, the text between the opening tag
of the cell (`<td class=del>- `, `<td class=add>+ ` or `<td> `) and its closing
`</td>` is the HTML-escaping of the text of the line after its marker, and that
text holds none of the bytes `<`, `>`, `"` and `'`. -/
theorem cell_text_escaped (st : Columns) (l : GoString) :
    (l.head? = some 45 →
        step st l =
          (st.1 ++ [ascii "<td class=del>- " ++ EscapeString l.tail ++ ascii "</td>"], st.2)) ∧
      (l.head? = some 43 →
        step st l =
          (st.1, st.2 ++ [ascii "<td class=add>+ " ++ EscapeString l.tail ++ ascii "</td>"])) ∧
      ((l = [] ∨ l.head? = some 32) →
        step st l =
          ((equalize st).1 ++ [ascii "<td> " ++ EscapeString l.tail ++ ascii "</td>"],
            (equalize st).2 ++ [ascii "<td> " ++ EscapeString l.tail ++ ascii "</td>"])) ∧
      ∀ b ∈ EscapeString l.tail, b ≠ 60 ∧ b ≠ 62 ∧ b ≠ 34 ∧ b ≠ 39 := by
  refine ⟨fun h => ?_, fun h => ?_, fun h => ?_, fun b hb => EscapeString_clean _ b hb⟩
  · rw [step_eq_refStep, refStep_removed st l h]
    rfl
  · rw [step_eq_refStep, refStep_added st l h]
    rfl
  · rw [step_eq_refStep, refStep_context st l h]
    rfl

theorem cell_text_escaped_witness :
    ((ascii "-<b>").head? = some 45 ∧
      step ([], []) (ascii "-<b>") = ([ascii "<td class=del>- &lt;b&gt;</td>"], [])) ∧
    ((ascii "+a\"b").head? = some 43 ∧
      step ([], []) (ascii "+a\"b") = ([], [ascii "<td class=add>+ a&#34;b</td>"])) ∧
    ((ascii " it's" = [] ∨ (ascii " it's").head? = some 32) ∧
      step ([], []) (ascii " it's") =
        ((equalize ([], [])).1 ++ [ascii "<td> it&#39;s</td>"],
          (equalize ([], [])).2 ++ [ascii "<td> it&#39;s</td>"])) :=
  ⟨⟨by decide, (cell_text_escaped ([], []) (ascii "-<b>")).1 (by decide)⟩,
    ⟨by decide, (cell_text_escaped ([], []) (ascii "+a\"b")).2.1 (by decide)⟩,
    ⟨by decide, (cell_text_escaped ([], []) (ascii " it's")).2.2.1 (by decide)⟩⟩

/-! ## The shape of the aligned rows -/

theorem rows_del_placeholder (X : List GoString) (hX : ∀ x ∈ X, ∃ s, x = delCell s) :
    List.Forall₂ RowShape X (List.replicate X.length placeholder) := by
  induction X with
  | nil => exact List.Forall₂.nil
  | cons x X ih =>
    obtain ⟨s, hs⟩ := hX x (List.mem_cons_self _ _)
    exact List.Forall₂.cons (Or.inr (Or.inr (Or.inl ⟨s, hs, rfl⟩)))
      (ih (fun y hy => hX y (List.mem_cons_of_mem _ hy)))

theorem rows_placeholder_add (Y : List GoString) (hY : ∀ y ∈ Y, ∃ t, y = addCell t) :
    List.Forall₂ RowShape (List.replicate Y.length placeholder) Y := by
  induction Y with
  | nil => exact List.Forall₂.nil
  | cons y Y ih =>
    obtain ⟨t, ht⟩ := hY y (List.mem_cons_self _ _)
    exact List.Forall₂.cons (Or.inr (Or.inr (Or.inr ⟨t, rfl, ht⟩)))
      (ih (fun z hz => hY z (List.mem_cons_of_mem _ hz)))

/-- Padding the run: removed cells face added cells, and what is left of the
longer side faces placeholders. -/
theorem rows_pad (X Y : List GoString) (hX : ∀ x ∈ X, ∃ s, x = delCell s)
    (hY : ∀ y ∈ Y, ∃ t, y = addCell t) :
    List.Forall₂ RowShape (X ++ List.replicate (Y.length - X.length) placeholder)
      (Y ++ List.replicate (X.length - Y.length) placeholder) := by
  induction X generalizing Y with
  | nil => simpa using rows_placeholder_add Y hY
  | cons x X ih =>
    cases Y with
    | nil => simpa using rows_del_placeholder (x :: X) hX
    | cons y Y =>
      obtain ⟨s, hs⟩ := hX x (List.mem_cons_self _ _)
      obtain ⟨t, ht⟩ := hY y (List.mem_cons_self _ _)
      have hrest := ih Y (fun z hz => hX z (List.mem_cons_of_mem _ hz))
        (fun z hz => hY z (List.mem_cons_of_mem _ hz))
      simp only [List.length_cons, Nat.add_sub_add_right, List.cons_append]
      exact List.Forall₂.cons (Or.inr (Or.inl ⟨s, t, hs, ht⟩)) hrest

theorem alignedThenRun_init : AlignedThenRun ([], []) :=
  ⟨[], [], [], [], rfl, List.Forall₂.nil, by simp, by simp⟩

/-- The two padding loops turn the columns into aligned rows. -/
theorem alignedThenRun_equalize (st : Columns) (h : AlignedThenRun st) :
    List.Forall₂ RowShape (equalize st).1 (equalize st).2 := by
  obtain ⟨A, B, X, Y, rfl, hAB, hX, hY⟩ := h
  have hlen := hAB.length_eq
  have h1 : (B ++ Y).length - (A ++ X).length = Y.length - X.length := by
    simp only [List.length_append]; omega
  have h2 : (A ++ X).length - (B ++ Y).length = X.length - Y.length := by
    simp only [List.length_append]; omega
  simp only [equalize_eq, h1, h2, List.append_assoc]
  exact List.rel_append hAB (rows_pad X Y hX hY)

theorem alignedThenRun_refStep (st : Columns) (l : GoString) (h : AlignedThenRun st) :
    AlignedThenRun (refStep st l) := by
  unfold refStep
  cases kindOf l with
  | removed =>
    obtain ⟨A, B, X, Y, rfl, hAB, hX, hY⟩ := h
    refine ⟨A, B, X ++ [delCell (EscapeString l.tail)], Y, by simp, hAB, ?_, hY⟩
    intro x hx
    rcases List.mem_append.1 hx with hx | hx
    · exact hX x hx
    · exact ⟨_, List.mem_singleton.1 hx⟩
  | added =>
    obtain ⟨A, B, X, Y, rfl, hAB, hX, hY⟩ := h
    refine ⟨A, B, X, Y ++ [addCell (EscapeString l.tail)], by simp, hAB, hX, ?_⟩
    intro y hy
    rcases List.mem_append.1 hy with hy | hy
    · exact hY y hy
    · exact ⟨_, List.mem_singleton.1 hy⟩
  | context =>
    refine ⟨(equalize st).1 ++ [ctxCell (EscapeString l.tail)],
      (equalize st).2 ++ [ctxCell (EscapeString l.tail)], [], [], by simp, ?_, by simp, by simp⟩
    exact List.rel_append (alignedThenRun_equalize st h)
      (List.Forall₂.cons (Or.inl ⟨_, rfl, rfl⟩) List.Forall₂.nil)
  | other => exact h

theorem alignedThenRun_foldl (ls : List GoString) (st : Columns) (h : AlignedThenRun st) :
    AlignedThenRun (ls.foldl refStep st) := by
  induction ls generalizing st with
  | nil => exact h
  | cons l ls ih => exact ih _ (alignedThenRun_refStep st l h)

/-- Every row of the columns of a hunk body has one of the four shapes. -/
theorem alignHunk_rows (body : GoString) :
    List.Forall₂ RowShape (alignHunk body).1 (alignHunk body).2 := by
  unfold alignHunk alignLines
  rw [foldl_step_eq]
  exact alignedThenRun_equalize _ (alignedThenRun_foldl _ _ alignedThenRun_init)

theorem forall₂_getElem? {P : GoString → GoString → Prop} {L R : List GoString}
    (h : List.Forall₂ P L R) (i : Nat) (a b : GoString) (ha : L[i]? = some a)
    (hb : R[i]? = some b) : P a b := by
  induction h generalizing i with
  | nil => simp at ha
  | cons hab _ ih =>
    cases i with
    | zero =>
      simp only [List.getElem?_cons_zero, Option.some.injEq] at ha hb
      subst ha hb
      exact hab
    | succ k =>
      simp only [List.getElem?_cons_succ] at ha hb
      exact ih k ha hb

/-! ## Context cells -/

theorem isContextCell_ctxCell (t : GoString) : isContextCell (ctxCell t) = true := by
  have h0 : ascii "<td> " = [60, 116, 100, 62, 32] := by decide
  simp [isContextCell, ctxCell, h0]

theorem isContextCell_delCell (t : GoString) : isContextCell (delCell t) = false := by
  have h0 : ascii "<td> " = [60, 116, 100, 62, 32] := by decide
  have h1 : ascii "<td class=del>- " = [60, 116, 100, 32, 99] ++ ascii "lass=del>- " := by decide
  simp [isContextCell, delCell, h0, h1]

theorem isContextCell_addCell (t : GoString) : isContextCell (addCell t) = false := by
  have h0 : ascii "<td> " = [60, 116, 100, 62, 32] := by decide
  have h1 : ascii "<td class=add>+ " = [60, 116, 100, 32, 99] ++ ascii "lass=add>+ " := by decide
  simp [isContextCell, addCell, h0, h1]

theorem isContextCell_placeholder : isContextCell placeholder = false := by decide

/-- In a row with a context cell, both cells are that context cell. -/
theorem RowShape.eq_of_context {a b : GoString} (h : RowShape a b)
    (hctx : isContextCell a = true ∨ isContextCell b = true) : a = b ∧ ∃ t, a = ctxCell t := by
  rcases h with ⟨t, rfl, rfl⟩ | ⟨s, t, rfl, rfl⟩ | ⟨s, rfl, rfl⟩ | ⟨t, rfl, rfl⟩
  · exact ⟨rfl, t, rfl⟩
  · simp [isContextCell_delCell, isContextCell_addCell] at hctx
  · simp [isContextCell_delCell, isContextCell_placeholder] at hctx
  · simp [isContextCell_addCell, isContextCell_placeholder] at hctx

/-- A row never has a placeholder on both sides. -/
theorem RowShape.not_both_placeholder {a b : GoString} (h : RowShape a b) :
    a ≠ placeholder ∨ b ≠ placeholder := by
  rcases h with ⟨t, rfl, rfl⟩ | ⟨s, t, rfl, rfl⟩ | ⟨s, rfl, rfl⟩ | ⟨t, rfl, rfl⟩
  · exact Or.inl (ctxCell_ne_placeholder t)
  · exact Or.inl (delCell_ne_placeholder s)
  · exact Or.inl (delCell_ne_placeholder s)
  · exact Or.inr (addCell_ne_placeholder t)

/-- The columns of a removed line followed by a context line. -/
theorem alignHunk_removed_context :
    alignHunk (ascii "-a\n c") =
      ([delCell (ascii "a"), ctxCell (ascii "c")], [placeholder, ctxCell (ascii "c")]) := by
  have hl : hunkLines (ascii "-a\n c") = [ascii "-a", ascii " c"] := by decide
  unfold alignHunk alignLines
  rw [hl, foldl_step_eq]
  simp only [List.foldl_cons, List.foldl_nil]
  rw [refStep_removed _ (ascii "-a") (by decide), refStep_context _ (ascii " c") (by decide)]
  simp [equalize_eq]
  decide

/-! ## Further properties of the specification -/

/-- C11: for every hunk body and every row index, if the left or the right cell
of the row is a context cell (of the form `<td> ...`, which no removed cell, added
cell or placeholder is), then the two cells of the row are equal, and they are the
context cell of one text. -/
theorem context_rows_synchronised (body : GoString) (i : Nat) (a b : GoString)
    (ha : (alignHunk body).1[i]? = some a) (hb : (alignHunk body).2[i]? = some b)
    (hctx : isContextCell a = true ∨ isContextCell b = true) :
    (a = b ∧ ∃ t, a = ctxCell t) ∧
      (∀ t, isContextCell (ctxCell t) = true ∧ isContextCell (delCell t) = false ∧
        isContextCell (addCell t) = false) ∧
      isContextCell placeholder = false :=
  ⟨(forall₂_getElem? (alignHunk_rows body) i a b ha hb).eq_of_context hctx,
    fun t => ⟨isContextCell_ctxCell t, isContextCell_delCell t, isContextCell_addCell t⟩,
    isContextCell_placeholder⟩

theorem context_rows_synchronised_witness :
    ((alignHunk (ascii "-a\n c")).1[1]? = some (ascii "<td> c</td>") ∧
      (alignHunk (ascii "-a\n c")).2[1]? = some (ascii "<td> c</td>") ∧
      (isContextCell (ascii "<td> c</td>") = true ∨ isContextCell (ascii "<td> c</td>") = true)) ∧
    ascii "<td> c</td>" = ascii "<td> c</td>" :=
  have ha : (alignHunk (ascii "-a\n c")).1[1]? = some (ascii "<td> c</td>") := by
    rw [alignHunk_removed_context]; decide
  have hb : (alignHunk (ascii "-a\n c")).2[1]? = some (ascii "<td> c</td>") := by
    rw [alignHunk_removed_context]; decide
  have hc : isContextCell (ascii "<td> c</td>") = true ∨
      isContextCell (ascii "<td> c</td>") = true := Or.inl (by decide)
  ⟨⟨ha, hb, hc⟩, (context_rows_synchronised (ascii "-a\n c") 1 _ _ ha hb hc).1.1⟩

/-- C12: an empty line is a context line with empty text: the loop body does the
same on the empty line and on the line of one space, namely the two padding loops
and then the cell `<td> </td>` appended to both columns; so replacing an empty
line by a line of one space in any list of lines leaves both columns unchanged. -/
theorem empty_line_is_context :
    (∀ st : Columns, step st [] = step st (ascii " ")) ∧
      (∀ st : Columns, step st [] =
        ((equalize st).1 ++ [ascii "<td> </td>"], (equalize st).2 ++ [ascii "<td> </td>"])) ∧
      ∀ xs ys : List GoString,
        alignLines (xs ++ [] :: ys) = alignLines (xs ++ ascii " " :: ys) := by
  have h1 : ∀ st : Columns, step st [] =
      ((equalize st).1 ++ [ascii "<td> </td>"], (equalize st).2 ++ [ascii "<td> </td>"]) := by
    intro st
    rw [step_eq_refStep, refStep_context st [] (Or.inl rfl)]
    rfl
  have h2 : ∀ st : Columns, step st (ascii " ") =
      ((equalize st).1 ++ [ascii "<td> </td>"], (equalize st).2 ++ [ascii "<td> </td>"]) := by
    intro st
    rw [step_eq_refStep, refStep_context st (ascii " ") (Or.inr (by decide))]
    rfl
  refine ⟨fun st => by rw [h1, h2], h1, fun xs ys => ?_⟩
  unfold alignLines
  rw [List.foldl_append, List.foldl_append, List.foldl_cons, List.foldl_cons, h1, h2]

/-! ## The emitted rows -/

/-- The emission loop body on the columns with one more row in front, at the
successors of the indices. -/
theorem foldlM_rows_shift (a b : GoString) (L R : List GoString) (is : List Nat)
    (w : GoString) :
    (is.map Nat.succ).foldlM
        (fun w i => (a :: L)[i]?.bind fun x => (b :: R)[i]?.bind fun y =>
          some (w ++ ascii "<tr>" ++ x ++ y ++ ascii "</tr>")) w =
      is.foldlM
        (fun w i => L[i]?.bind fun x => R[i]?.bind fun y =>
          some (w ++ ascii "<tr>" ++ x ++ y ++ ascii "</tr>")) w := by
  induction is generalizing w with
  | nil => rfl
  | cons i is ih =>
    simp only [List.map_cons, List.foldlM_cons, Nat.succ_eq_add_one, List.getElem?_cons_succ]
    cases hL : L[i]? with
    | none => rfl
    | some x =>
      cases hR : R[i]? with
      | none => rfl
      | some y =>
        simp only [Option.bind_eq_bind, Option.some_bind]
        exact ih _

/-- When `right` is at least as long as `left`, the emission loop writes one
row per index of `left`. -/
theorem foldlM_rows (L R : List GoString) (h : L.length ≤ R.length) (w : GoString) :
    (List.range L.length).foldlM
        (fun w i => L[i]?.bind fun x => R[i]?.bind fun y =>
          some (w ++ ascii "<tr>" ++ x ++ y ++ ascii "</tr>")) w =
      some (w ++ (List.zipWith tableRow L R).flatten) := by
  induction L generalizing R w with
  | nil => simp
  | cons a L ih =>
    cases R with
    | nil => simp at h
    | cons b R =>
      simp only [List.length_cons, Nat.add_le_add_iff_right] at h
      rw [List.length_cons, List.range_succ_eq_map, List.foldlM_cons]
      simp only [List.getElem?_cons_zero, Option.bind_eq_bind, Option.some_bind]
      rw [foldlM_rows_shift, ih R h]
      simp [tableRow]

theorem emitRows_eq (L R : List GoString) (h : L.length ≤ R.length) :
    emitRows L R = some (List.zipWith tableRow L R).flatten := by
  unfold emitRows
  simp only [Option.bind_eq_bind, Option.pure_def]
  rw [foldlM_rows L R h]
  simp

theorem renderTable_eq (body : GoString) : renderTable body = some (tableText body) := by
  unfold renderTable tableText
  rw [emitRows_eq _ _ (le_of_eq (by unfold alignHunk alignLines; exact equalize_length _))]
  rfl

/-- C13: for every hunk body, what the emission loop writes is the concatenation,
in order, of the rows `<tr>` ++ left[i] ++ right[i] ++ `</tr>` of the two columns,
one row per index of `left` (the columns have the same length), between the
opening and the closing tag of the table. -/
theorem table_rows (body : GoString) :
    emitRows (alignHunk body).1 (alignHunk body).2 =
        some (List.zipWith (fun a b => ascii "<tr>" ++ a ++ b ++ ascii "</tr>")
          (alignHunk body).1 (alignHunk body).2).flatten ∧
      (List.zipWith (fun a b => ascii "<tr>" ++ a ++ b ++ ascii "</tr>")
          (alignHunk body).1 (alignHunk body).2).length = (alignHunk body).1.length ∧
      (alignHunk body).1.length = (alignHunk body).2.length ∧
      renderTable body =
        some (ascii "<table class=hunk width='100%'>" ++
          (List.zipWith (fun a b => ascii "<tr>" ++ a ++ b ++ ascii "</tr>")
            (alignHunk body).1 (alignHunk body).2).flatten ++ ascii "</table>") := by
  have hlen : (alignHunk body).1.length = (alignHunk body).2.length := by
    unfold alignHunk alignLines
    exact equalize_length _
  refine ⟨emitRows_eq _ _ (le_of_eq hlen), ?_, hlen, renderTable_eq body⟩
  simp [hlen]

/-! ## The file -/

theorem renderHunk_eq (goSyntax : Hunk → GoString) (hi : Nat) (h : Hunk) :
    renderHunk goSyntax hi h =
      some ((if hi > 0 then ascii "<hr>" else []) ++ hunkText goSyntax h) := by
  unfold renderHunk hunkText
  rw [renderTable_eq]
  simp

/-- After the first hunk every hunk is written behind a separator. -/
theorem renderHunks_succ (goSyntax : Hunk → GoString) (hi : Nat) (hs : List Hunk) :
    renderHunks goSyntax (hi + 1) hs =
      some (hs.flatMap (fun h => ascii "<hr>" ++ hunkText goSyntax h)) := by
  induction hs generalizing hi with
  | nil => rfl
  | cons h hs ih =>
    unfold renderHunks
    rw [renderHunk_eq, ih]
    simp

theorem renderHunks_zero_cons (goSyntax : Hunk → GoString) (h : Hunk) (hs : List Hunk) :
    renderHunks goSyntax 0 (h :: hs) =
      some (hunkText goSyntax h ++
        hs.flatMap (fun h' => ascii "<hr>" ++ hunkText goSyntax h')) := by
  unfold renderHunks
  rw [renderHunk_eq, renderHunks_succ]
  simp

theorem section_open : ascii "<section>" ++ ascii "<h2>" = ascii "<section><h2>" := by decide

theorem renderFile_nil (goSyntax : Hunk → GoString) (name : GoString) :
    renderFile goSyntax ⟨name, []⟩ =
      some (ascii "<section><h2>" ++ name ++ ascii "</h2>" ++ ascii "</section>") := by
  unfold renderFile renderHunks
  rw [← section_open]
  simp

theorem renderFile_cons (goSyntax : Hunk → GoString) (name : GoString) (h : Hunk)
    (hs : List Hunk) :
    renderFile goSyntax ⟨name, h :: hs⟩ =
      some (ascii "<section><h2>" ++ name ++ ascii "</h2>" ++ hunkText goSyntax h ++
        hs.flatMap (fun h' => ascii "<hr>" ++ hunkText goSyntax h') ++ ascii "</section>") := by
  unfold renderFile
  rw [renderHunks_zero_cons, ← section_open]
  simp

/-- C14: for every file, `renderFile` writes `<section><h2>`, the name and
`</h2>`, then the renderings of the hunks in input order (each the comment and
one table), with `<hr>` written before every hunk except the first, then
`</section>`: k renderings and k-1 separators for k >= 1 hunks, and neither a
table nor a separator for a file without hunks. -/
theorem file_rendering (goSyntax : Hunk → GoString) (name : GoString) :
    renderFile goSyntax ⟨name, []⟩ =
        some (ascii "<section><h2>" ++ name ++ ascii "</h2>" ++ ascii "</section>") ∧
      (∀ (h : Hunk) (hs : List Hunk),
        renderFile goSyntax ⟨name, h :: hs⟩ =
          some (ascii "<section><h2>" ++ name ++ ascii "</h2>" ++ hunkText goSyntax h ++
            hs.flatMap (fun h' => ascii "<hr>" ++ hunkText goSyntax h') ++
            ascii "</section>")) ∧
      ∀ h : Hunk,
        hunkText goSyntax h =
          ascii "<!-- " ++ EscapeString (goSyntax h) ++ ascii " -->" ++
            (ascii "<table class=hunk width='100%'>" ++
              (List.zipWith (fun a b => ascii "<tr>" ++ a ++ b ++ ascii "</tr>")
                (alignHunk h.Body).1 (alignHunk h.Body).2).flatten ++ ascii "</table>") :=
  ⟨renderFile_nil goSyntax name, renderFile_cons goSyntax name, fun _ => rfl⟩

/-- C15: inside a run the order of a removed line and an added line next to each
other does not matter: for all lists of lines xs and ys, every line r starting
with `-` and every line a starting with `+`, the lines xs ++ [r, a] ++ ys and
xs ++ [a, r] ++ ys give the same columns. -/
theorem run_interleaving (xs ys : List GoString) (r a : GoString)
    (hr : r.head? = some 45) (ha : a.head? = some 43) :
    alignLines (xs ++ [r, a] ++ ys) = alignLines (xs ++ [a, r] ++ ys) := by
  have hswap : ∀ st : Columns, refStep (refStep st r) a = refStep (refStep st a) r := by
    intro st
    rw [refStep_removed st r hr, refStep_added _ a ha, refStep_added st a ha,
      refStep_removed _ r hr]
  unfold alignLines
  simp only [List.foldl_append, List.foldl_cons, List.foldl_nil, step_eq_refStep]
  rw [hswap]

theorem run_interleaving_witness :
    ((ascii "-a").head? = some 45 ∧ (ascii "+b").head? = some 43) ∧
      alignLines ([ascii " x"] ++ [ascii "-a", ascii "+b"] ++ [ascii " y"]) =
        alignLines ([ascii " x"] ++ [ascii "+b", ascii "-a"] ++ [ascii " y"]) :=
  ⟨⟨by decide, by decide⟩,
    run_interleaving [ascii " x"] [ascii " y"] (ascii "-a") (ascii "+b") (by decide) (by decide)⟩

/-- C16: for every hunk body and every row index, the left and the right cell of
the row are not both the placeholder cell. -/
theorem no_row_of_placeholders (body : GoString) (i : Nat) (a b : GoString)
    (ha : (alignHunk body).1[i]? = some a) (hb : (alignHunk body).2[i]? = some b) :
    a ≠ placeholder ∨ b ≠ placeholder :=
  (forall₂_getElem? (alignHunk_rows body) i a b ha hb).not_both_placeholder

theorem no_row_of_placeholders_witness :
    ((alignHunk (ascii "-a\n c")).1[0]? = some (ascii "<td class=del>- a</td>") ∧
      (alignHunk (ascii "-a\n c")).2[0]? = some (ascii "<td></td>")) ∧
    (ascii "<td class=del>- a</td>" ≠ placeholder ∨ ascii "<td></td>" ≠ placeholder) :=
  have ha : (alignHunk (ascii "-a\n c")).1[0]? = some (ascii "<td class=del>- a</td>") := by
    rw [alignHunk_removed_context]; decide
  have hb : (alignHunk (ascii "-a\n c")).2[0]? = some (ascii "<td></td>") := by
    rw [alignHunk_removed_context]; decide
  ⟨⟨ha, hb⟩, no_row_of_placeholders (ascii "-a\n c") 0 _ _ ha hb⟩

/-! ## Indexing -/

theorem markerAndTextChecked_eq (line : GoString) :
    markerAndTextChecked line = some (markerAndText line) := by
  cases line with
  | nil => rfl
  | cons b t => simp [markerAndTextChecked, markerAndText, indexByte, sliceFrom]

theorem stepChecked_eq (st : Columns) (l : GoString) : stepChecked st l = some (step st l) := by
  unfold stepChecked step
  rw [markerAndTextChecked_eq]
  simp only [Option.bind_eq_bind, Option.some_bind, Option.pure_def]
  split_ifs <;> rfl

theorem foldlM_stepChecked (ls : List GoString) (st : Columns) :
    ls.foldlM stepChecked st = some (ls.foldl step st) := by
  induction ls generalizing st with
  | nil => rfl
  | cons l ls ih =>
    rw [List.foldlM_cons, stepChecked_eq]
    exact ih _

theorem alignHunkChecked_eq (body : GoString) :
    alignHunkChecked body = some (alignHunk body) := by
  unfold alignHunkChecked
  rw [foldlM_stepChecked]
  rfl

theorem renderFile_isSome (goSyntax : Hunk → GoString) (f : FileDiff) :
    (renderFile goSyntax f).isSome = true := by
  obtain ⟨name, hunks⟩ := f
  cases hunks with
  | nil => rw [renderFile_nil]; rfl
  | cons h hs => rw [renderFile_cons]; rfl

/-- C17: `renderFile` never indexes out of range: on a non-empty line the
accesses `line[0]` and `line[1:]` are in range, so the loop with checked accesses
gives the columns for every hunk body; every index of `left` is an index of
`right`, so the emission loop runs to its end; and `renderFile` returns for every
file. -/
theorem no_index_out_of_range :
    (∀ line : GoString, 0 < line.length →
        (indexByte line 0).isSome = true ∧ (sliceFrom line 1).isSome = true) ∧
      (∀ line : GoString, markerAndTextChecked line = some (markerAndText line)) ∧
      (∀ body : GoString, alignHunkChecked body = some (alignHunk body)) ∧
      (∀ (body : GoString) (i : Nat), i < (alignHunk body).1.length →
        i < (alignHunk body).2.length ∧ ((alignHunk body).2[i]?).isSome = true) ∧
      (∀ body : GoString, (emitRows (alignHunk body).1 (alignHunk body).2).isSome = true) ∧
      ∀ (goSyntax : Hunk → GoString) (f : FileDiff), (renderFile goSyntax f).isSome = true := by
  have hlen : ∀ body : GoString, (alignHunk body).1.length = (alignHunk body).2.length := by
    intro body
    unfold alignHunk alignLines
    exact equalize_length _
  refine ⟨?_, markerAndTextChecked_eq, alignHunkChecked_eq, ?_, ?_, renderFile_isSome⟩
  · intro line hpos
    cases line with
    | nil => simp at hpos
    | cons b t => simp [indexByte, sliceFrom]
  · intro body i hi
    have hi2 : i < (alignHunk body).2.length := by rw [← hlen]; exact hi
    refine ⟨hi2, ?_⟩
    rw [List.getElem?_eq_getElem hi2]
    rfl
  · intro body
    rw [emitRows_eq _ _ (le_of_eq (hlen body))]
    rfl

theorem no_index_out_of_range_witness :
    (0 < (ascii "-a").length ∧
      (indexByte (ascii "-a") 0).isSome = true ∧ (sliceFrom (ascii "-a") 1).isSome = true) ∧
    (1 < (alignHunk (ascii "-a\n c")).1.length ∧ 1 < (alignHunk (ascii "-a\n c")).2.length) :=
  have h0 : 0 < (ascii "-a").length := by decide
  have h1 : 1 < (alignHunk (ascii "-a\n c")).1.length := by
    rw [alignHunk_removed_context]; decide
  ⟨⟨h0, no_index_out_of_range.1 (ascii "-a") h0⟩,
    ⟨h1, (no_index_out_of_range.2.2.2.1 (ascii "-a\n c") 1 h1).1⟩⟩

/-- C18: the file name is not HTML-escaped: for every file the output of
`renderFile` begins with `<section><h2>`, the name as it is, and `</h2>`; for the
name `a<b` the heading holds the byte `<` itself, where the escaping of the name
would hold `&lt;`. -/
theorem file_name_verbatim :
    (∀ (goSyntax : Hunk → GoString) (f : FileDiff), ∃ rest : GoString,
        renderFile goSyntax f =
          some (ascii "<section><h2>" ++ f.OrigName ++ ascii "</h2>" ++ rest)) ∧
      (∀ goSyntax : Hunk → GoString,
        renderFile goSyntax ⟨ascii "a<b", []⟩ =
          some (ascii "<section><h2>a<b</h2></section>")) ∧
      (60 : UInt8) ∈ ascii "a<b" ∧
      EscapeString (ascii "a<b") = ascii "a&lt;b" ∧
      (60 : UInt8) ∉ EscapeString (ascii "a<b") := by
  refine ⟨?_, ?_, by decide, by decide, by decide⟩
  · intro goSyntax f
    obtain ⟨name, hunks⟩ := f
    cases hunks with
    | nil => exact ⟨ascii "</section>", renderFile_nil goSyntax name⟩
    | cons h hs =>
      refine ⟨hunkText goSyntax h ++
        hs.flatMap (fun h' => ascii "<hr>" ++ hunkText goSyntax h') ++ ascii "</section>", ?_⟩
      rw [renderFile_cons]
      simp
  · intro goSyntax
    rw [renderFile_nil]
    decide

end Diff
